import Mathlib

/-!
Shallow embedding of the V-Trace chunk-hashing / Merkle-root pipeline
(src/backend/src/core: merkle.js, generateChunkHashes.js, chunkHasher.js,
hasher.js).

Modelling conventions:
* JS strings (hex digests) are `List Char`; `Buffer` bytes are `Nat`
  (a JS buffer byte is always `< 256`).
* The external SHA-256 primitive (`crypto.createHash("sha256")`) is not
  code of this repository, so it is an explicit function parameter
  `H : List Nat → List Nat` throughout; every structural theorem below
  holds for an arbitrary such function.  A streaming hash object
  (`hash.update` called repeatedly, then one `digest("hex")`) is modelled
  as applying `H` to the concatenation of all bytes fed to `update`,
  followed by hex encoding.
* A readable stream (`fs.createReadStream`) is modelled by its observable
  outcome: either an error event carrying an opaque error token, or the
  finite list of buffers delivered by its data events.  The file path
  itself is abstracted away (the spec treats the byte source as opaque).
-/

/-- A JS string holding a hex digest, modelled as its character list. -/
abbrev Digest := List Char

/-- The payload of one stream data event (a delivered buffer). -/
abbrev DataEvent := List Nat

/-- Observable outcome of opening and reading the byte source: an error
event token, or the ordered list of delivered data-event buffers. -/
abbrev ByteSource := Except Nat (List DataEvent)

/-- Nibble-to-character table of Buffer.toString with hex encoding
(lowercase). Values `≥ 16` never arise from a byte nibble. -/
def nibbleChar : Nat → Char
  | 0 => '0'
  | 1 => '1'
  | 2 => '2'
  | 3 => '3'
  | 4 => '4'
  | 5 => '5'
  | 6 => '6'
  | 7 => '7'
  | 8 => '8'
  | 9 => '9'
  | 10 => 'a'
  | 11 => 'b'
  | 12 => 'c'
  | 13 => 'd'
  | 14 => 'e'
  | _ => 'f'

/-- Hex encoding of a byte sequence, as produced by `digest("hex")` on a
Node hash object: two lowercase hex characters per byte.  The `% 16` on
the high nibble is the identity for genuine bytes (`< 256`) and merely
keeps the encoder total on `Nat`. -/
def hexEncode : List Nat → List Char
  | [] => []
  | b :: t => nibbleChar (b / 16 % 16) :: nibbleChar (b % 16) :: hexEncode t

/-- Numeric value of one hex character, as decoded by
`Buffer.from(hex, "hex")`; characters outside the hex alphabet never
reach this function on the validated paths below. -/
def hexDigitVal (c : Char) : Nat :=
  if 48 ≤ c.toNat ∧ c.toNat ≤ 57 then c.toNat - 48
  else if 97 ≤ c.toNat ∧ c.toNat ≤ 102 then c.toNat - 87
  else if 65 ≤ c.toNat ∧ c.toNat ≤ 70 then c.toNat - 55
  else 0

/-- Byte decoding of a hex string, as in `Buffer.from(hex, "hex")`:
consecutive character pairs become bytes (a dangling final character is
dropped, as Node does). -/
def hexDecode : List Char → List Nat
  | c1 :: c2 :: t => (16 * hexDigitVal c1 + hexDigitVal c2) :: hexDecode t
  | _ => []

/-- The character class of the regex `[0-9a-f]` in `merkle.js`
(`isValidSHA256Hex`): ASCII digit or lowercase `a`–`f`. -/
def isLowerHexDigit (c : Char) : Bool :=
  (48 ≤ c.toNat && c.toNat ≤ 57) || (97 ≤ c.toNat && c.toNat ≤ 102)

/-- `isValidSHA256Hex` from merkle.js: the string matches
`/[0-9a-f]{64}/` anchored at both ends, i.e. exactly 64 characters, each
a lowercase hex digit.  (The `typeof hash === "string"` guard is carried
by the type of `Digest`.) -/
def isValidSHA256Hex (h : Digest) : Bool :=
  h.length == 64 && h.all isLowerHexDigit

/-- ASCII lowercasing of one character, the effect of JS
`String.prototype.toLowerCase` on the characters relevant here. -/
def toLowerChar (c : Char) : Char :=
  if 65 ≤ c.toNat ∧ c.toNat ≤ 90 then Char.ofNat (c.toNat + 32) else c

/-- `hashPair` from merkle.js: decode both child digests to raw bytes
(`Buffer.from(_, "hex")`), concatenate the byte buffers, hash, and
re-encode as lowercase hex. -/
def hashPair (H : List Nat → List Nat) (leftHex rightHex : Digest) : Digest :=
  hexEncode (H (hexDecode leftHex ++ hexDecode rightHex))

/-- The pairing loop of `buildNextLevel`:
`for (i = 0; i < nodes.length; i += 2) parent.push(hashPair(nodes[i], nodes[i+1]))`.
The one-element case is unreachable from `buildNextLevel` (duplication
makes the node list even) and is mapped to the empty parent list. -/
def pairUp (H : List Nat → List Nat) : List Digest → List Digest
  | a :: b :: rest => hashPair H a b :: pairUp H rest
  | _ => []

/-- The `nodes` computation of `buildNextLevel`: duplicate the last node
when the count is odd (`[...level, level[level.length - 1]]`). -/
def duplicateLastIfOdd (level : List Digest) : List Digest :=
  if level.length % 2 == 0 then level else level ++ [level.getLastD []]

/-- `buildNextLevel` from merkle.js. -/
def buildNextLevel (H : List Nat → List Nat) (level : List Digest) : List Digest :=
  pairUp H (duplicateLastIfOdd level)

/-- The `while (currentLevel.length > 1)` reduction loop of
`buildMerkleRoot`.  Termination: one reduction step at least halves a
level of length `≥ 2`. -/
def reduceLevels (H : List Nat → List Nat) (level : List Digest) : List Digest :=
  if h : level.length ≤ 1 then level
  else reduceLevels H (buildNextLevel H level)
termination_by level.length
decreasing_by
  have key : ∀ (n : Nat) (l : List Digest), l.length ≤ n →
      (pairUp H l).length = l.length / 2 := by
    intro n
    induction n with
    | zero =>
      intro l hl
      rcases l with _ | ⟨a, t⟩
      · simp [pairUp]
      · simp only [List.length_cons] at hl; omega
    | succ n ih =>
      intro l hl
      rcases l with _ | ⟨a, l2⟩
      · simp [pairUp]
      rcases l2 with _ | ⟨b, t⟩
      · simp [pairUp]
      have ht : t.length ≤ n := by
        simp only [List.length_cons] at hl; omega
      simp only [pairUp, List.length_cons, ih t ht]
      omega
  have hdup : (duplicateLastIfOdd level).length = level.length ∨
      (duplicateLastIfOdd level).length = level.length + 1 := by
    unfold duplicateLastIfOdd
    by_cases hp : (level.length % 2 == 0) = true
    · rw [if_pos hp]; exact Or.inl rfl
    · rw [if_neg hp]; right; simp
  have hnext : (buildNextLevel H level).length =
      (duplicateLastIfOdd level).length / 2 := by
    unfold buildNextLevel
    exact key (duplicateLastIfOdd level).length _ (le_refl _)
  rcases hdup with h1 | h1 <;> rw [hnext, h1] <;> omega

/-- Error outcomes of `buildMerkleRoot` (merkle.js throws):
`RangeError` on an empty array, `TypeError` (with the offending index and
value) when an element fails digest validation.  The `TypeError` thrown
when the argument is not an array at all has no counterpart here, since
the embedding types the argument as a list. -/
inductive MerkleError where
  | emptyInput : MerkleError
  | invalidDigest (index : Nat) (value : Digest) : MerkleError
deriving DecidableEq, Repr

/-- `buildMerkleRoot` from merkle.js: validate (empty check, then
`findIndex` of the first invalid digest), return a single leaf unchanged,
otherwise lowercase every digest and run the level-reduction loop,
returning `currentLevel[0]`. -/
def buildMerkleRoot (H : List Nat → List Nat) (hashes : List Digest) :
    Except MerkleError Digest :=
  if hashes.isEmpty then .error .emptyInput
  else
    match hashes.findIdx? (fun h => !isValidSHA256Hex h) with
    | some i => .error (.invalidDigest i (hashes.getD i []))
    | none =>
      if hashes.length == 1 then .ok (hashes.headD [])
      else .ok ((reduceLevels H (hashes.map (fun h => h.map toLowerChar))).headD [])

/-- Error outcomes of the chunk hashers: `RangeError` on a bad chunk
size, or the source's own error event propagated (its token kept
unchanged). -/
inductive ChunkError where
  | invalidChunkSize : ChunkError
  | sourceError (e : Nat) : ChunkError
deriving DecidableEq, Repr

/-- The data-event handler of generateChunkHashes.js: slice the delivered
buffer against the current accumulation state
(`bytesInCurrentChunk` = `acc.length`, the pending hash state = `acc`),
flushing a digest each time the accumulator reaches `chunkSize`.
Returns the extended digest list and the new accumulator.  The
`remaining = 0` guard is unreachable whenever `0 < cs` and
`acc.length < cs` (the invariant of every reachable state). -/
def processData (H : List Nat → List Nat) (cs : Nat) :
    List Nat → List Nat → List Digest → List Digest × List Nat
  | chunk, acc, hashes =>
    if hc : chunk.isEmpty then (hashes, acc)
    else
      if hr : cs - acc.length = 0 then (hashes, acc)
      else
        let slice := chunk.take (cs - acc.length)
        if (acc ++ slice).length = cs then
          processData H cs (chunk.drop (cs - acc.length)) []
            (hashes ++ [hexEncode (H (acc ++ slice))])
        else (hashes, acc ++ slice)
termination_by chunk _ _ => chunk.length
decreasing_by
  simp only [List.length_drop]
  have hne : chunk ≠ [] := by
    intro hnil; exact hc (by simp [hnil])
  have hpos : 0 < chunk.length := List.length_pos.mpr hne
  omega

/-- Folding the data-event handler over the whole stream of delivered
buffers, threading the digest list and the accumulator. -/
def runEvents (H : List Nat → List Nat) (cs : Nat) :
    List DataEvent → List Nat → List Digest → List Digest × List Nat
  | [], acc, hashes => (hashes, acc)
  | e :: t, acc, hashes =>
    let r := processData H cs e acc hashes
    runEvents H cs t r.2 r.1

/-- `generateChunkHashes` from generateChunkHashes.js: reject a
non-positive chunk size (`RangeError`; the `Number.isInteger` half of the
guard is carried by the `Int` type), propagate a stream error unchanged,
otherwise fold the data handler over the delivered buffers and flush the
final shorter chunk on the end event when the accumulator is non-empty.
The file-path string validation is not modelled: the byte source is
abstract here. -/
def generateChunkHashes (H : List Nat → List Nat) (src : ByteSource)
    (chunkSize : Int) : Except ChunkError (List Digest) :=
  if chunkSize ≤ 0 then .error .invalidChunkSize
  else
    match src with
    | .error e => .error (.sourceError e)
    | .ok events =>
      let r := runEvents H chunkSize.toNat events [] []
      .ok (if r.2.isEmpty then r.1 else r.1 ++ [hexEncode (H r.2)])

namespace ChunkHasher

/-- `generateChunkHashes` from chunkHasher.js, the transport-dependent
variant: one digest per delivered buffer, no re-accumulation to the
configured boundary and no chunk-size validation. -/
def generateChunkHashes (H : List Nat → List Nat) (src : ByteSource) :
    Except ChunkError (List Digest) :=
  match src with
  | .error e => .error (.sourceError e)
  | .ok events => .ok (events.map (fun c => hexEncode (H c)))

end ChunkHasher

/-- `generateFileHash` from hasher.js: one hash object updated with every
delivered buffer, digested on the end event; a stream error is rejected
unchanged. -/
def generateFileHash (H : List Nat → List Nat) (src : ByteSource) :
    Except Nat Digest :=
  match src with
  | .error e => .error e
  | .ok events => .ok (hexEncode (H events.flatten))

/-- Modelled from the spec: the consecutive `cs`-byte windows of a byte
string (the last window possibly shorter) — the claims' description of
byte-exact chunk boundaries, used as the comparison target for the chunk
hasher. -/
def byteWindows (cs : Nat) (bs : List Nat) : List (List Nat) :=
  if h : cs = 0 ∨ bs = [] then []
  else bs.take cs :: byteWindows cs (bs.drop cs)
termination_by bs.length
decreasing_by
  rw [not_or] at h
  have hpos := List.length_pos.mpr h.2
  simp only [List.length_drop]
  have hcs : cs ≠ 0 := h.1
  omega

/-- Splits a byte string into its maximal run of complete `cs`-byte
windows plus the remainder (shorter than `cs`); proof-side companion of
`byteWindows`. -/
def splitFull (cs : Nat) (bs : List Nat) : List (List Nat) × List Nat :=
  if h : cs = 0 ∨ bs.length < cs then ([], bs)
  else
    let p := splitFull cs (bs.drop cs)
    (bs.take cs :: p.1, p.2)
termination_by bs.length
decreasing_by
  rw [not_or] at h
  simp only [List.length_drop]
  have hcs : cs ≠ 0 := h.1
  have hlen : ¬ bs.length < cs := h.2
  omega

/-- A constant-output stand-in hash function, used only to instantiate
closed statements whose truth does not depend on the hash function. -/
def constHash32 : List Nat → List Nat := fun _ => List.replicate 32 0

/-- An element-by-element structural copy of a digest list (the fresh
copy of the caller's array in the spec's no-mutation property). -/
def copyList : List Digest → List Digest
  | [] => []
  | h :: t => h :: copyList t

deriving instance DecidableEq for Except

/-! ## Basic lemmas about the embedded helpers -/

theorem pairUp_length (H : List Nat → List Nat) :
    ∀ l : List Digest, (pairUp H l).length = l.length / 2
  | [] => by simp [pairUp]
  | [_] => by simp [pairUp]
  | _ :: _ :: t => by
    simp only [pairUp, List.length_cons, pairUp_length H t]
    omega

theorem duplicateLastIfOdd_length (level : List Digest) :
    (duplicateLastIfOdd level).length =
      if level.length % 2 = 0 then level.length else level.length + 1 := by
  unfold duplicateLastIfOdd
  by_cases hp : level.length % 2 = 0 <;> simp [hp]

theorem buildNextLevel_length (H : List Nat → List Nat) (level : List Digest) :
    (buildNextLevel H level).length = (duplicateLastIfOdd level).length / 2 := by
  unfold buildNextLevel
  exact pairUp_length H _

theorem buildNextLevel_length_lt (H : List Nat → List Nat) (level : List Digest)
    (h : 2 ≤ level.length) : (buildNextLevel H level).length < level.length := by
  rw [buildNextLevel_length, duplicateLastIfOdd_length]
  by_cases hp : level.length % 2 = 0 <;> simp [hp] <;> omega

theorem buildNextLevel_ne_nil (H : List Nat → List Nat) (level : List Digest)
    (h : level ≠ []) : buildNextLevel H level ≠ [] := by
  have h1 : 0 < level.length := List.length_pos.mpr h
  have h2 := buildNextLevel_length H level
  rw [duplicateLastIfOdd_length] at h2
  intro hnil
  rw [hnil] at h2
  simp only [List.length_nil] at h2
  by_cases hp : level.length % 2 = 0
  · rw [if_pos hp] at h2; omega
  · rw [if_neg hp] at h2; omega

theorem pairUp_shape (H : List Nat → List Nat) :
    ∀ (l : List Digest) (x : Digest), x ∈ pairUp H l → ∃ a b, x = hashPair H a b
  | [], x, hx => by simp [pairUp] at hx
  | [_], x, hx => by simp [pairUp] at hx
  | a :: b :: t, x, hx => by
    simp only [pairUp, List.mem_cons] at hx
    rcases hx with h | h
    · exact ⟨a, b, h⟩
    · exact pairUp_shape H t x h

theorem pairUp_idx (H : List Nat → List Nat) :
    ∀ (l : List Digest) (i : Nat), 2 * i + 1 < l.length →
      (pairUp H l)[i]? = some (hashPair H (l.getD (2 * i) []) (l.getD (2 * i + 1) []))
  | [], i, h => by simp only [List.length_nil] at h; omega
  | [_], i, h => by simp only [List.length_cons, List.length_nil] at h; omega
  | a :: b :: t, 0, h => by simp [pairUp]
  | a :: b :: t, i + 1, h => by
    have h2 : 2 * i + 1 < t.length := by
      simp only [List.length_cons] at h; omega
    have e1 : 2 * (i + 1) = 2 * i + 1 + 1 := by omega
    have e2 : 2 * (i + 1) + 1 = 2 * i + 1 + 1 + 1 := by omega
    simp only [pairUp, List.getElem?_cons_succ, e1, e2, List.getD_cons_succ]
    exact pairUp_idx H t i h2

theorem nibbleChar_hex (n : Nat) : isLowerHexDigit (nibbleChar n) = true := by
  by_cases h : n < 15
  · interval_cases n <;> decide
  · obtain ⟨k, rfl⟩ : ∃ k, n = k + 15 := ⟨n - 15, by omega⟩
    rfl

theorem hexEncode_length : ∀ bs : List Nat, (hexEncode bs).length = 2 * bs.length
  | [] => by simp [hexEncode]
  | b :: t => by
    simp only [hexEncode, List.length_cons, hexEncode_length t]
    omega

theorem hexEncode_hex : ∀ (bs : List Nat) (c : Char),
    c ∈ hexEncode bs → isLowerHexDigit c = true
  | [], c, hc => by simp [hexEncode] at hc
  | b :: t, c, hc => by
    simp only [hexEncode, List.mem_cons] at hc
    rcases hc with h | h | h
    · rw [h]; exact nibbleChar_hex _
    · rw [h]; exact nibbleChar_hex _
    · exact hexEncode_hex t c h

theorem isValidSHA256Hex_iff (d : Digest) :
    isValidSHA256Hex d = true ↔ d.length = 64 ∧ ∀ c ∈ d, isLowerHexDigit c = true := by
  simp [isValidSHA256Hex, List.all_eq_true]

theorem hashPair_valid (H : List Nat → List Nat) (hH : ∀ bs, (H bs).length = 32)
    (a b : Digest) : isValidSHA256Hex (hashPair H a b) = true := by
  rw [isValidSHA256Hex_iff]
  constructor
  · rw [hashPair, hexEncode_length, hH]
  · intro c hc
    exact hexEncode_hex _ c hc

theorem toLowerChar_fix (c : Char) (h : isLowerHexDigit c = true) :
    toLowerChar c = c := by
  unfold isLowerHexDigit at h
  simp only [Bool.or_eq_true, Bool.and_eq_true, decide_eq_true_eq] at h
  unfold toLowerChar
  rw [if_neg (by omega)]

theorem valid_map_toLower (d : Digest) (h : isValidSHA256Hex d = true) :
    d.map toLowerChar = d := by
  rw [isValidSHA256Hex_iff] at h
  have key : ∀ l : List Char, (∀ c ∈ l, isLowerHexDigit c = true) →
      l.map toLowerChar = l := by
    intro l
    induction l with
    | nil => intro _; rfl
    | cons a t ih =>
      intro hall
      simp only [List.map_cons]
      rw [toLowerChar_fix a (hall a (by simp)), ih (fun c hc => hall c (by simp [hc]))]
  exact key d h.2

theorem map_toLower_id (hashes : List Digest)
    (hval : ∀ h ∈ hashes, isValidSHA256Hex h = true) :
    hashes.map (fun h => h.map toLowerChar) = hashes := by
  induction hashes with
  | nil => rfl
  | cons a t ih =>
    simp only [List.map_cons]
    rw [valid_map_toLower a (hval a (by simp)),
      ih (fun h hh => hval h (by simp [hh]))]

theorem reduceLevels_le (H : List Nat → List Nat) (level : List Digest)
    (h : level.length ≤ 1) : reduceLevels H level = level := by
  rw [reduceLevels]
  simp [h]

theorem reduceLevels_gt (H : List Nat → List Nat) (level : List Digest)
    (h : ¬ level.length ≤ 1) :
    reduceLevels H level = reduceLevels H (buildNextLevel H level) := by
  rw [reduceLevels]
  simp [h]

theorem reduceLevels_result (H : List Nat → List Nat)
    (hH : ∀ bs, (H bs).length = 32) :
    ∀ (n : Nat) (level : List Digest), level.length ≤ n → level ≠ [] →
      (∀ x ∈ level, isValidSHA256Hex x = true) →
      ∃ r, reduceLevels H level = [r] ∧ isValidSHA256Hex r = true := by
  intro n
  induction n with
  | zero =>
    intro level hl hne _
    exact absurd (List.eq_nil_of_length_eq_zero (Nat.le_zero.mp hl)) hne
  | succ n ih =>
    intro level hl hne hval
    by_cases h1 : level.length ≤ 1
    · rcases level with _ | ⟨a, t⟩
      · exact absurd rfl hne
      · have ht : t = [] := by
          simp only [List.length_cons] at h1
          exact List.eq_nil_of_length_eq_zero (by omega)
        subst ht
        exact ⟨a, reduceLevels_le H _ (by simp), hval a (by simp)⟩
    · rw [reduceLevels_gt H _ h1]
      apply ih
      · have := buildNextLevel_length_lt H level (by omega)
        omega
      · exact buildNextLevel_ne_nil H _ hne
      · intro x hx
        obtain ⟨u, v, huv⟩ := pairUp_shape H _ x hx
        rw [huv]
        exact hashPair_valid H hH u v

theorem buildMerkleRoot_ok_of_valid (H : List Nat → List Nat)
    (hashes : List Digest) (hne : hashes ≠ [])
    (hval : ∀ h ∈ hashes, isValidSHA256Hex h = true) :
    buildMerkleRoot H hashes = .ok ((reduceLevels H hashes).headD []) := by
  unfold buildMerkleRoot
  rw [if_neg (by simp [hne])]
  have hfind : hashes.findIdx? (fun h => !isValidSHA256Hex h) = none := by
    rw [List.findIdx?_eq_none_iff]
    intro x hx
    simp [hval x hx]
  rw [hfind]
  by_cases h1 : hashes.length = 1
  · rcases hashes with _ | ⟨a, t⟩
    · simp at h1
    · have ht : t = [] := by
        simp only [List.length_cons] at h1
        exact List.eq_nil_of_length_eq_zero (by omega)
      subst ht
      rw [if_pos (by simp)]
      rw [reduceLevels_le H _ (by simp)]
  · rw [if_neg (by simpa using h1)]
    rw [map_toLower_id hashes hval]

/-! ## Claim theorems: Merkle tree builder -/

/-- C1: at every level reduction, `parent[i]` is the hash of the byte
concatenation of the decoded raw values of nodes `2i` and `2i+1` of the
(odd-duplicated) level — bytes, not hex text; `buildMerkleRoot` on a
valid non-empty leaf list runs exactly this level-by-level reduction;
and for three leaves `[a, b, c]` the root is
`H(H(a‖b) ‖ H(c‖c))` over raw bytes. -/
theorem merkle_pairwise_hash_structure (H : List Nat → List Nat) :
    (∀ (level : List Digest) (i : Nat),
       2 * i + 1 < (duplicateLastIfOdd level).length →
       (buildNextLevel H level)[i]? =
         some (hexEncode (H
           (hexDecode ((duplicateLastIfOdd level).getD (2 * i) []) ++
            hexDecode ((duplicateLastIfOdd level).getD (2 * i + 1) []))))) ∧
    (∀ leaves : List Digest, leaves ≠ [] →
       (∀ h ∈ leaves, isValidSHA256Hex h = true) →
       buildMerkleRoot H leaves = .ok ((reduceLevels H leaves).headD [])) ∧
    (∀ a b c : Digest, isValidSHA256Hex a = true → isValidSHA256Hex b = true →
       isValidSHA256Hex c = true →
       buildMerkleRoot H [a, b, c] =
         .ok (hashPair H (hashPair H a b) (hashPair H c c))) := by
  refine ⟨?_, ?_, ?_⟩
  · intro level i h
    have := pairUp_idx H (duplicateLastIfOdd level) i h
    unfold buildNextLevel
    simpa only [hashPair] using this
  · exact fun leaves => buildMerkleRoot_ok_of_valid H leaves
  · intro a b c ha hb hc
    rw [buildMerkleRoot_ok_of_valid H [a, b, c] (by simp)
      (by
        intro h hh
        simp only [List.mem_cons] at hh
        rcases hh with rfl | rfl | rfl | hh
        · exact ha
        · exact hb
        · exact hc
        · simp at hh)]
    have e1 : duplicateLastIfOdd [a, b, c] = [a, b, c, c] := by
      simp [duplicateLastIfOdd]
    have e2 : buildNextLevel H [a, b, c] = [hashPair H a b, hashPair H c c] := by
      unfold buildNextLevel
      rw [e1]
      simp [pairUp]
    have e3 : buildNextLevel H [hashPair H a b, hashPair H c c] =
        [hashPair H (hashPair H a b) (hashPair H c c)] := by
      unfold buildNextLevel
      have e4 : duplicateLastIfOdd [hashPair H a b, hashPair H c c] =
          [hashPair H a b, hashPair H c c] := by
        simp [duplicateLastIfOdd]
      rw [e4]
      simp [pairUp]
    rw [reduceLevels_gt H _ (by simp), e2, reduceLevels_gt H _ (by simp), e3,
      reduceLevels_le H _ (by simp)]
    rfl

/-- Witness for C1: the three-leaf identity instantiated at concrete
digests and a concrete hash function. -/
theorem merkle_pairwise_hash_structure_witness :
    buildMerkleRoot constHash32
        [List.replicate 64 'a', List.replicate 64 'b', List.replicate 64 'c'] =
      .ok (hashPair constHash32
        (hashPair constHash32 (List.replicate 64 'a') (List.replicate 64 'b'))
        (hashPair constHash32 (List.replicate 64 'c') (List.replicate 64 'c'))) :=
  (merkle_pairwise_hash_structure constHash32).2.2 _ _ _
    (by decide) (by decide) (by decide)

/-- C4: a single valid digest is returned unchanged, before any
lowercasing or hashing work; the result does not depend on the hash
function at all. -/
theorem single_leaf_root_identity (d : Digest) (hd : isValidSHA256Hex d = true)
    (H : List Nat → List Nat) : buildMerkleRoot H [d] = .ok d := by
  rw [buildMerkleRoot_ok_of_valid H [d] (by simp) (by simpa using hd)]
  rw [reduceLevels_le H _ (by simp)]
  rfl

/-- Witness for C4. -/
theorem single_leaf_root_identity_witness :
    buildMerkleRoot constHash32 [List.replicate 64 'a'] =
      .ok (List.replicate 64 'a') :=
  single_leaf_root_identity _ (by decide) constHash32

/-- C5 (amended): `buildMerkleRoot` succeeds exactly when the input list
is non-empty and every element is a string of exactly 64 *lowercase*
hexadecimal characters; on any other input it raises an error before any
hashing work, so no partial root is ever produced. -/
theorem buildMerkleRoot_ok_iff (H : List Nat → List Nat) (hashes : List Digest) :
    (∃ r, buildMerkleRoot H hashes = .ok r) ↔
      hashes ≠ [] ∧ ∀ h ∈ hashes, isValidSHA256Hex h = true := by
  constructor
  · rintro ⟨r, hr⟩
    unfold buildMerkleRoot at hr
    by_cases he : hashes.isEmpty
    · rw [if_pos he] at hr
      cases hr
    · rw [if_neg he] at hr
      refine ⟨by simpa [List.isEmpty_iff] using he, ?_⟩
      rcases hfind : hashes.findIdx? (fun h => !isValidSHA256Hex h) with _ | i
      · rw [List.findIdx?_eq_none_iff] at hfind
        intro x hx
        simpa using hfind x hx
      · rw [hfind] at hr
        cases hr
  · rintro ⟨hne, hval⟩
    exact ⟨_, buildMerkleRoot_ok_of_valid H hashes hne hval⟩

/-- Counterexample to C5 as stated: a string of exactly 64 hexadecimal
characters (uppercase `F`s) in a non-empty input, which the claim's
error condition does not cover, is nevertheless rejected by
`buildMerkleRoot` — the code's validation demands lowercase. -/
theorem buildMerkleRoot_uppercase_hex_rejected :
    ([List.replicate 64 'F'] ≠ ([] : List Digest)) ∧
    (List.replicate 64 'F').length = 64 ∧
    (∀ c ∈ List.replicate 64 'F',
      (48 ≤ c.toNat ∧ c.toNat ≤ 57) ∨ (97 ≤ c.toNat ∧ c.toNat ≤ 102) ∨
      (65 ≤ c.toNat ∧ c.toNat ≤ 70)) ∧
    (buildMerkleRoot constHash32 [List.replicate 64 'F']).isOk = false := by
  decide

/-- C6 (code bug): validation runs on the original casing, so an
uppercase-but-otherwise-valid digest is rejected, even though its
lowercased form — which the later normalization step would produce — is
accepted and returned. -/
theorem case_normalization_order_bug :
    (buildMerkleRoot constHash32 [List.replicate 64 'A']).isOk = false ∧
    buildMerkleRoot constHash32 [List.replicate 64 'a'] =
      .ok (List.replicate 64 'a') ∧
    (List.replicate 64 'A').map toLowerChar = List.replicate 64 'a' := by
  decide

/-- C7: for every non-empty valid leaf list the reduction terminates
(each step strictly shrinks a level of length `≥ 2`) and the returned
root is a 64-character lowercase hex string. -/
theorem merkle_reduction_terminates (H : List Nat → List Nat)
    (hH : ∀ bs, (H bs).length = 32) (leaves : List Digest)
    (hne : leaves ≠ []) (hval : ∀ h ∈ leaves, isValidSHA256Hex h = true) :
    (∀ level : List Digest, 2 ≤ level.length →
       (buildNextLevel H level).length < level.length) ∧
    ∃ r, buildMerkleRoot H leaves = .ok r ∧ isValidSHA256Hex r = true := by
  constructor
  · exact fun level h => buildNextLevel_length_lt H level h
  · obtain ⟨r, hr, hv⟩ :=
      reduceLevels_result H hH leaves.length leaves (le_refl _) hne hval
    refine ⟨r, ?_, hv⟩
    rw [buildMerkleRoot_ok_of_valid H leaves hne hval, hr]
    rfl

/-- Witness for C7: a concrete two-leaf run with a length-32 hash
function. -/
theorem merkle_reduction_terminates_witness :
    (∀ level : List Digest, 2 ≤ level.length →
       (buildNextLevel constHash32 level).length < level.length) ∧
    ∃ r, buildMerkleRoot constHash32
        [List.replicate 64 'a', List.replicate 64 'b'] = .ok r ∧
      isValidSHA256Hex r = true :=
  merkle_reduction_terminates constHash32
    (fun bs => by simp [constHash32]) _ (by decide) (by decide)

/-- C8: the builder is a pure function of its input: an element-wise
copy of the caller's list is equal to the original (nothing was
mutated), and the root computed from the copy equals the root computed
from the original. -/
theorem buildMerkleRoot_no_mutation (H : List Nat → List Nat)
    (leaves : List Digest) :
    copyList leaves = leaves ∧
    buildMerkleRoot H (copyList leaves) = buildMerkleRoot H leaves := by
  have hc : copyList leaves = leaves := by
    induction leaves with
    | nil => rfl
    | cons a t ih => simp [copyList, ih]
  exact ⟨hc, by rw [hc]⟩

/-! ## Lemmas about the byte-exact chunk hasher -/

theorem splitFull_stop (cs : Nat) (bs : List Nat) (h : cs = 0 ∨ bs.length < cs) :
    splitFull cs bs = ([], bs) := by
  rw [splitFull, dif_pos h]

theorem splitFull_step (cs : Nat) (bs : List Nat) (h : ¬(cs = 0 ∨ bs.length < cs)) :
    splitFull cs bs =
      (bs.take cs :: (splitFull cs (bs.drop cs)).1, (splitFull cs (bs.drop cs)).2) := by
  rw [splitFull, dif_neg h]

theorem processData_spec (H : List Nat → List Nat) (cs : Nat) (hcs : 0 < cs) :
    ∀ (n : Nat) (chunk acc : List Nat) (hashes : List Digest),
      chunk.length ≤ n → acc.length < cs →
      processData H cs chunk acc hashes =
        (hashes ++ (splitFull cs (acc ++ chunk)).1.map (fun c => hexEncode (H c)),
         (splitFull cs (acc ++ chunk)).2) := by
  intro n
  induction n with
  | zero =>
    intro chunk acc hashes hl ha
    have hnil : chunk = [] := List.eq_nil_of_length_eq_zero (Nat.le_zero.mp hl)
    subst hnil
    rw [processData, dif_pos (by simp)]
    rw [splitFull_stop cs (acc ++ []) (Or.inr (by simpa using ha))]
    simp
  | succ n ih =>
    intro chunk acc hashes hl ha
    by_cases hnil : chunk = []
    · subst hnil
      rw [processData, dif_pos (by simp)]
      rw [splitFull_stop cs (acc ++ []) (Or.inr (by simpa using ha))]
      simp
    · rw [processData, dif_neg (by simpa [List.isEmpty_iff] using hnil)]
      rw [dif_neg (by omega)]
      by_cases hfull : (acc ++ chunk.take (cs - acc.length)).length = cs
      · rw [if_pos hfull]
        have hbig : cs - acc.length ≤ chunk.length := by
          simp only [List.length_append, List.length_take] at hfull
          omega
        have hrec := ih (chunk.drop (cs - acc.length)) []
          (hashes ++ [hexEncode (H (acc ++ chunk.take (cs - acc.length)))])
          (by
            simp only [List.length_drop]
            have : 0 < chunk.length := List.length_pos.mpr hnil
            omega)
          (by simpa using hcs)
        rw [hrec]
        have hstep : splitFull cs (acc ++ chunk) =
            ((acc ++ chunk).take cs :: (splitFull cs ((acc ++ chunk).drop cs)).1,
             (splitFull cs ((acc ++ chunk).drop cs)).2) := by
          apply splitFull_step
          rw [not_or]
          refine ⟨by omega, ?_⟩
          simp only [List.length_append]
          omega
        have htake : (acc ++ chunk).take cs = acc ++ chunk.take (cs - acc.length) := by
          rw [List.take_append_eq_append_take, List.take_of_length_le (by omega)]
        have hdrop : (acc ++ chunk).drop cs = chunk.drop (cs - acc.length) := by
          rw [List.drop_append_eq_append_drop, List.drop_eq_nil_of_le (by omega)]
          simp
        rw [hstep, htake, hdrop]
        simp
      · rw [if_neg hfull]
        have hsmall : chunk.length < cs - acc.length := by
          simp only [List.length_append, List.length_take] at hfull
          omega
        rw [List.take_of_length_le (by omega)]
        rw [splitFull_stop cs (acc ++ chunk)
          (Or.inr (by simp only [List.length_append]; omega))]
        simp

theorem splitFull_rest_lt (cs : Nat) (hcs : 0 < cs) :
    ∀ (n : Nat) (bs : List Nat), bs.length ≤ n → (splitFull cs bs).2.length < cs := by
  intro n
  induction n with
  | zero =>
    intro bs hl
    have hnil : bs = [] := List.eq_nil_of_length_eq_zero (Nat.le_zero.mp hl)
    subst hnil
    rw [splitFull_stop cs [] (Or.inr (by simpa using hcs))]
    simpa using hcs
  | succ n ih =>
    intro bs hl
    by_cases hsmall : bs.length < cs
    · rw [splitFull_stop cs bs (Or.inr hsmall)]
      exact hsmall
    · rw [splitFull_step cs bs (by rw [not_or]; exact ⟨by omega, hsmall⟩)]
      exact ih (bs.drop cs) (by simp only [List.length_drop]; omega)

theorem splitFull_append (cs : Nat) (hcs : 0 < cs) :
    ∀ (n : Nat) (bs more : List Nat), bs.length ≤ n →
      splitFull cs (bs ++ more) =
        ((splitFull cs bs).1 ++ (splitFull cs ((splitFull cs bs).2 ++ more)).1,
         (splitFull cs ((splitFull cs bs).2 ++ more)).2) := by
  intro n
  induction n with
  | zero =>
    intro bs more hl
    have hnil : bs = [] := List.eq_nil_of_length_eq_zero (Nat.le_zero.mp hl)
    subst hnil
    rw [splitFull_stop cs [] (Or.inr (by simpa using hcs))]
    simp
  | succ n ih =>
    intro bs more hl
    by_cases hsmall : bs.length < cs
    · rw [splitFull_stop cs bs (Or.inr hsmall)]
      simp
    · have hnot : ¬(cs = 0 ∨ bs.length < cs) := by rw [not_or]; exact ⟨by omega, hsmall⟩
      have hnot2 : ¬(cs = 0 ∨ (bs ++ more).length < cs) := by
        rw [not_or]
        refine ⟨by omega, ?_⟩
        simp only [List.length_append]
        omega
      rw [splitFull_step cs (bs ++ more) hnot2, splitFull_step cs bs hnot]
      have htake : (bs ++ more).take cs = bs.take cs := by
        rw [List.take_append_eq_append_take]
        rw [show cs - bs.length = 0 from by omega]
        simp
      have hdrop : (bs ++ more).drop cs = bs.drop cs ++ more := by
        rw [List.drop_append_eq_append_drop]
        rw [show cs - bs.length = 0 from by omega]
        simp
      rw [htake, hdrop, ih (bs.drop cs) more (by simp only [List.length_drop]; omega)]
      simp

theorem runEvents_spec (H : List Nat → List Nat) (cs : Nat) (hcs : 0 < cs) :
    ∀ (events : List DataEvent) (acc : List Nat) (hashes : List Digest),
      acc.length < cs →
      runEvents H cs events acc hashes =
        (hashes ++ (splitFull cs (acc ++ events.flatten)).1.map (fun c => hexEncode (H c)),
         (splitFull cs (acc ++ events.flatten)).2) := by
  intro events
  induction events with
  | nil =>
    intro acc hashes ha
    rw [runEvents]
    rw [show (([] : List DataEvent).flatten) = [] from rfl]
    rw [splitFull_stop cs (acc ++ []) (Or.inr (by simpa using ha))]
    simp
  | cons e t ih =>
    intro acc hashes ha
    rw [runEvents]
    rw [processData_spec H cs hcs e.length e acc hashes (le_refl _) ha]
    have hrest := splitFull_rest_lt cs hcs (acc ++ e).length (acc ++ e) (le_refl _)
    rw [ih _ _ hrest]
    have hflat : acc ++ (e :: t).flatten = (acc ++ e) ++ t.flatten := by
      simp
    rw [hflat, splitFull_append cs hcs (acc ++ e).length (acc ++ e) t.flatten (le_refl _)]
    simp

theorem byteWindows_stop (cs : Nat) (bs : List Nat) (h : cs = 0 ∨ bs = []) :
    byteWindows cs bs = [] := by
  rw [byteWindows, dif_pos h]

theorem byteWindows_step (cs : Nat) (bs : List Nat) (h : ¬(cs = 0 ∨ bs = [])) :
    byteWindows cs bs = bs.take cs :: byteWindows cs (bs.drop cs) := by
  rw [byteWindows, dif_neg h]

theorem byteWindows_eq_splitFull (cs : Nat) (hcs : 0 < cs) :
    ∀ (n : Nat) (bs : List Nat), bs.length ≤ n →
      byteWindows cs bs =
        (splitFull cs bs).1 ++
          (if (splitFull cs bs).2.isEmpty then [] else [(splitFull cs bs).2]) := by
  intro n
  induction n with
  | zero =>
    intro bs hl
    have hnil : bs = [] := List.eq_nil_of_length_eq_zero (Nat.le_zero.mp hl)
    subst hnil
    rw [byteWindows_stop cs [] (Or.inr rfl),
      splitFull_stop cs [] (Or.inr (by simpa using hcs))]
    simp
  | succ n ih =>
    intro bs hl
    by_cases hnil : bs = []
    · subst hnil
      rw [byteWindows_stop cs [] (Or.inr rfl),
        splitFull_stop cs [] (Or.inr (by simpa using hcs))]
      simp
    · by_cases hsmall : bs.length < cs
      · rw [byteWindows_step cs bs (by rw [not_or]; exact ⟨by omega, hnil⟩)]
        rw [List.drop_eq_nil_of_le (by omega), byteWindows_stop cs [] (Or.inr rfl)]
        rw [List.take_of_length_le (by omega)]
        rw [splitFull_stop cs bs (Or.inr hsmall)]
        simp [List.isEmpty_iff, hnil]
      · rw [byteWindows_step cs bs (by rw [not_or]; exact ⟨by omega, hnil⟩)]
        rw [splitFull_step cs bs (by rw [not_or]; exact ⟨by omega, hsmall⟩)]
        rw [ih (bs.drop cs) (by simp only [List.length_drop]; omega)]
        simp

theorem byteWindows_length (cs : Nat) (hcs : 0 < cs) :
    ∀ (n : Nat) (bs : List Nat), bs.length ≤ n →
      (byteWindows cs bs).length = (bs.length + cs - 1) / cs := by
  intro n
  induction n with
  | zero =>
    intro bs hl
    have hnil : bs = [] := List.eq_nil_of_length_eq_zero (Nat.le_zero.mp hl)
    subst hnil
    rw [byteWindows_stop cs [] (Or.inr rfl)]
    simp only [List.length_nil]
    rw [Nat.div_eq_of_lt (show 0 + cs - 1 < cs by omega)]
  | succ n ih =>
    intro bs hl
    by_cases hnil : bs = []
    · subst hnil
      rw [byteWindows_stop cs [] (Or.inr rfl)]
      simp only [List.length_nil]
      rw [Nat.div_eq_of_lt (show 0 + cs - 1 < cs by omega)]
    · rw [byteWindows_step cs bs (by rw [not_or]; exact ⟨by omega, hnil⟩)]
      have hpos : 0 < bs.length := List.length_pos.mpr hnil
      simp only [List.length_cons]
      rw [ih (bs.drop cs) (by simp only [List.length_drop]; omega)]
      simp only [List.length_drop]
      by_cases hge : cs ≤ bs.length
      · have e1 : bs.length - cs + cs - 1 = bs.length - 1 := by omega
        have e2 : bs.length + cs - 1 = (bs.length - 1) + cs := by omega
        rw [e1, e2, Nat.add_div_right _ hcs]
      · have e1 : bs.length - cs = 0 := by omega
        rw [e1]
        have e2 : (0 + cs - 1) / cs = 0 := Nat.div_eq_of_lt (by omega)
        rw [e2]
        have e3 : (bs.length + cs - 1) / cs = 1 :=
          Nat.div_eq_of_lt_le (by omega) (by omega)
        rw [e3]

theorem generateChunkHashes_ok (H : List Nat → List Nat) (events : List DataEvent)
    (cs : Nat) (hcs : 0 < cs) :
    generateChunkHashes H (.ok events) (Int.ofNat cs) =
      .ok ((byteWindows cs events.flatten).map (fun w => hexEncode (H w))) := by
  unfold generateChunkHashes
  rw [if_neg (by simp; omega)]
  simp only
  rw [show (Int.ofNat cs).toNat = cs from by simp]
  rw [runEvents_spec H cs hcs events [] [] (by simpa using hcs)]
  rw [byteWindows_eq_splitFull cs hcs events.flatten.length events.flatten (le_refl _)]
  simp only [List.nil_append, List.map_append]
  by_cases hre : (splitFull cs events.flatten).2.isEmpty
  · simp [hre]
  · simp [hre]

/-! ## Claim theorems: chunk hasher -/

/-- C2: with a positive chunk size, the byte-exact chunk hasher emits
exactly one digest per consecutive `cs`-byte window of the source's
byte string, and its output depends only on that byte string — not on
how the bytes were partitioned into transport-level data events. -/
theorem chunk_digests_byte_exact (H : List Nat → List Nat)
    (events : List DataEvent) (cs : Nat) (hcs : 0 < cs) :
    generateChunkHashes H (.ok events) (Int.ofNat cs) =
      .ok ((byteWindows cs events.flatten).map (fun w => hexEncode (H w))) ∧
    ∀ events2 : List DataEvent, events2.flatten = events.flatten →
      generateChunkHashes H (.ok events2) (Int.ofNat cs) =
        generateChunkHashes H (.ok events) (Int.ofNat cs) := by
  refine ⟨generateChunkHashes_ok H events cs hcs, ?_⟩
  intro events2 he
  rw [generateChunkHashes_ok H events2 cs hcs,
    generateChunkHashes_ok H events cs hcs, he]

/-- Witness for C2: three bytes delivered as two events, chunk size 2. -/
theorem chunk_digests_byte_exact_witness :
    generateChunkHashes constHash32 (.ok [[0, 1], [2]]) (Int.ofNat 2) =
      .ok ((byteWindows 2 ([[0, 1], [2]] : List DataEvent).flatten).map
        (fun w => hexEncode (constHash32 w))) :=
  (chunk_digests_byte_exact constHash32 [[0, 1], [2]] 2 (by decide)).1

/-- C3: with a positive chunk size the chunk hasher returns exactly
`⌈len/cs⌉ = (len + cs - 1) / cs` digests; in particular a zero-length
source yields `.ok []` (no error, no empty-content digest), and an exact
multiple of `cs` yields exactly `len / cs` digests with no extra one. -/
theorem chunk_digest_count (H : List Nat → List Nat) (events : List DataEvent)
    (cs : Nat) (hcs : 0 < cs) :
    (∃ ds, generateChunkHashes H (.ok events) (Int.ofNat cs) = .ok ds ∧
       ds.length = (events.flatten.length + cs - 1) / cs) ∧
    (events.flatten = [] →
       generateChunkHashes H (.ok events) (Int.ofNat cs) = .ok []) := by
  constructor
  · refine ⟨_, generateChunkHashes_ok H events cs hcs, ?_⟩
    rw [List.length_map,
      byteWindows_length cs hcs events.flatten.length events.flatten (le_refl _)]
  · intro h
    rw [generateChunkHashes_ok H events cs hcs, h,
      byteWindows_stop cs [] (Or.inr rfl)]
    rfl

/-- Witness for C3: three bytes with chunk size 2 give two digests. -/
theorem chunk_digest_count_witness :
    ∃ ds, generateChunkHashes constHash32 (.ok [[5], [6, 7]]) (Int.ofNat 2) =
        .ok ds ∧
      ds.length = (([[5], [6, 7]] : List DataEvent).flatten.length + 2 - 1) / 2 :=
  (chunk_digest_count constHash32 [[5], [6, 7]] 2 (by decide)).1

/-- C9: the byte-exact chunk hasher rejects every non-positive chunk
size with the invalid-argument error (before touching the source), and
propagates the source's error event unchanged whenever the source fails;
in both cases the result is an error, never a digest list. -/
theorem chunkHasher_error_conditions (H : List Nat → List Nat) :
    (∀ (src : ByteSource) (chunkSize : Int), chunkSize ≤ 0 →
       generateChunkHashes H src chunkSize = .error .invalidChunkSize) ∧
    (∀ (e : Nat) (chunkSize : Int), 0 < chunkSize →
       generateChunkHashes H (.error e) chunkSize =
         .error (.sourceError e)) := by
  constructor
  · intro src c hc
    unfold generateChunkHashes
    rw [if_pos hc]
  · intro e c hc
    unfold generateChunkHashes
    rw [if_neg (by omega)]

/-- Witness for C9: chunk size 0 is rejected; error token 7 propagates. -/
theorem chunkHasher_error_conditions_witness :
    generateChunkHashes constHash32 (.ok [[1]]) 0 = .error .invalidChunkSize ∧
    generateChunkHashes constHash32 (.error 7) 4 = .error (.sourceError 7) :=
  ⟨(chunkHasher_error_conditions constHash32).1 (.ok [[1]]) 0 (by decide),
   (chunkHasher_error_conditions constHash32).2 7 4 (by decide)⟩

/-- C10: a non-empty source no longer than one chunk yields exactly one
chunk digest, and that digest coincides with the whole-file digest
computed by `generateFileHash` over the same bytes. -/
theorem single_chunk_matches_file_hash (H : List Nat → List Nat)
    (events : List DataEvent) (cs : Nat) (hcs : 0 < cs)
    (hne : events.flatten ≠ []) (hle : events.flatten.length ≤ cs) :
    generateChunkHashes H (.ok events) (Int.ofNat cs) =
      .ok [hexEncode (H events.flatten)] ∧
    generateFileHash H (.ok events) = .ok (hexEncode (H events.flatten)) := by
  constructor
  · rw [generateChunkHashes_ok H events cs hcs]
    have hwin : byteWindows cs events.flatten = [events.flatten] := by
      rw [byteWindows_step cs events.flatten (by rw [not_or]; exact ⟨by omega, hne⟩)]
      rw [List.take_of_length_le hle, List.drop_eq_nil_of_le hle,
        byteWindows_stop cs [] (Or.inr rfl)]
    rw [hwin]
    rfl
  · rfl

/-- Witness for C10: two bytes, chunk size 4. -/
theorem single_chunk_matches_file_hash_witness :
    generateChunkHashes constHash32 (.ok [[7, 7]]) (Int.ofNat 4) =
      .ok [hexEncode (constHash32 ([[7, 7]] : List DataEvent).flatten)] ∧
    generateFileHash constHash32 (.ok [[7, 7]]) =
      .ok (hexEncode (constHash32 ([[7, 7]] : List DataEvent).flatten)) :=
  single_chunk_matches_file_hash constHash32 [[7, 7]] 4
    (by decide) (by decide) (by decide)
